import Mathlib

set_option maxHeartbeats 1000000
set_option maxRecDepth 4000

/-!
Shallow embedding of `youtube_transcript_downloader.py` (caption normalizer,
caption retriever, channel enumerator parsing, batch orchestrator and manifest),
with theorems checking the specification's claims against it.

Machine strings are modelled as Lean `String` / `List Char`.  Python's default
whitespace (for `str.strip()`, `\s`, `\S`) is modelled by its ASCII core set.
-/

/-- ASCII model of Python whitespace, as used by `str.strip()` and `\s` / `\S`. -/
def pyIsSpace (c : Char) : Bool :=
  c == ' ' || c == '\t' || c == '\n' || c == '\r' || c == '\x0b' || c == '\x0c'

/-- Negation of `pyIsSpace`, the `\S` character class. -/
def nonspace (c : Char) : Bool := !(pyIsSpace c)

/-- Python `str.strip(chars)`: drop characters satisfying `p` from both ends. -/
def stripChars (p : Char → Bool) (l : List Char) : List Char :=
  ((l.dropWhile p).reverse.dropWhile p).reverse

/-- Python `s.split("\n")`: split a character list on newline separators.
The result always has one more piece than there are newlines. -/
def splitNl : List Char → List (List Char)
  | [] => [[]]
  | c :: cs =>
    if c == '\n' then [] :: splitNl cs
    else
      match splitNl cs with
      | h :: t => (c :: h) :: t
      | [] => [[c]]

/-- Python `" ".join(...)` on character lists. -/
def joinSpaceL : List (List Char) → List Char
  | [] => []
  | [x] => x
  | x :: xs => x ++ ' ' :: joinSpaceL xs

/-- Test for the regex `^\d{2}:\d{2}:\d{2}\.\d{3}\s*-->` used by `clean_vtt`
to recognise cue timestamp lines (`re.match`, anchored at the line start). -/
def isTimestampLine (l : List Char) : Bool :=
  match l with
  | d1 :: d2 :: ':' :: d3 :: d4 :: ':' :: d5 :: d6 :: '.' :: m1 :: m2 :: m3 :: rest =>
    d1.isDigit && d2.isDigit && d3.isDigit && d4.isDigit && d5.isDigit && d6.isDigit &&
      m1.isDigit && m2.isDigit && m3.isDigit &&
      "-->".data.isPrefixOf (rest.dropWhile pyIsSpace)
  | _ => false

/-- Test whether an inline timing tag `<\d{2}:\d{2}:\d{2}\.\d{3}>` starts at the
head of the list (the pattern of the first `re.sub` in `clean_vtt`). -/
def isTimeTagAt (l : List Char) : Bool :=
  match l with
  | '<' :: d1 :: d2 :: ':' :: d3 :: d4 :: ':' :: d5 :: d6 :: '.' :: m1 :: m2 :: m3 :: '>' :: _ =>
    d1.isDigit && d2.isDigit && d3.isDigit && d4.isDigit && d5.isDigit && d6.isDigit &&
      m1.isDigit && m2.isDigit && m3.isDigit
  | _ => false

/-- `re.sub(r"<\d{2}:\d{2}:\d{2}\.\d{3}>", "", line)`: left-to-right scan,
removing each non-overlapping 14-character timing tag; on a failed match the
scanner advances one character. -/
def removeTimeTags : List Char → List Char
  | '<' :: d1 :: d2 :: ':' :: d3 :: d4 :: ':' :: d5 :: d6 :: '.' :: m1 :: m2 :: m3 :: '>' :: rest =>
    if d1.isDigit && d2.isDigit && d3.isDigit && d4.isDigit && d5.isDigit && d6.isDigit &&
        m1.isDigit && m2.isDigit && m3.isDigit then
      removeTimeTags rest
    else
      '<' :: removeTimeTags (d1 :: d2 :: ':' :: d3 :: d4 :: ':' :: d5 :: d6 :: '.' :: m1 :: m2 :: m3 :: '>' :: rest)
  | c :: cs => c :: removeTimeTags cs
  | [] => []

/-- `re.sub(r"</?c>", "", text)`: remove `</c>` and `<c>` styling tags,
scanning left to right. -/
def removeCTags : List Char → List Char
  | '<' :: '/' :: 'c' :: '>' :: rest => removeCTags rest
  | '<' :: 'c' :: '>' :: rest => removeCTags rest
  | c :: cs => c :: removeCTags cs
  | [] => []

/-- `re.sub` of the pattern `t0 ts \S+` (here `align:\S+` and `position:\S+`) by
the empty string, as a two-state scanner.  In normal mode (`swallow = false`),
if the literal `t0 :: ts` starts at the current position and is followed by at
least one non-whitespace character, the scanner drops the current character and
enters swallow mode, which drops the maximal non-whitespace run (consuming the
rest of the literal and the `\S+` match, since the literal itself is
whitespace-free for both patterns used) and then returns to normal mode;
otherwise the current character is kept and the scanner advances by one.
This agrees with `re.sub` left-to-right non-overlapping replacement whenever
`t0` and `ts` are non-whitespace, which holds for both uses. -/
def subTok (t0 : Char) (ts : List Char) (swallow : Bool) : List Char → List Char
  | [] => []
  | c :: cs =>
    if swallow then
      if nonspace c then subTok t0 ts true cs
      else c :: subTok t0 ts false cs
    else if c == t0 && ts.isPrefixOf cs &&
        (match cs.drop ts.length with | d :: _ => nonspace d | [] => false) then
      subTok t0 ts true cs
    else c :: subTok t0 ts false cs

/-- The token-removal pass in normal scanning mode. -/
def subToken (t0 : Char) (ts : List Char) (l : List Char) : List Char :=
  subTok t0 ts false l

/-- The per-line cleaning of a candidate text line in `clean_vtt`: strip inline
timing tags, `<c>`/`</c>` styling tags, `align:`/`position:` annotation tokens,
then trim surrounding whitespace. -/
def cleanLine (line : List Char) : List Char :=
  stripChars pyIsSpace
    (subToken 'p' "osition:".data
      (subToken 'a' "lign:".data
        (removeCTags (removeTimeTags line))))

/-- The skip tests `clean_vtt` applies to a raw line before cleaning: document
header, metadata lines, cue timestamp lines and blank lines are discarded. -/
def rawSkip (line : List Char) : Bool :=
  "WEBVTT".data.isPrefixOf line ||
  "Kind:".data.isPrefixOf line ||
  "Language:".data.isPrefixOf line ||
  isTimestampLine line ||
  stripChars pyIsSpace line == []

/-- One iteration of the `clean_vtt` loop: the accumulator is the pair of the
`cleaned` output list and the `seen` set (Python set membership is equality, so
the set is carried as the list of its insertion-ordered elements). -/
def cleanStep (acc : List (List Char) × List (List Char)) (line : List Char) :
    List (List Char) × List (List Char) :=
  if rawSkip line then acc
  else
    let text := cleanLine line
    if text.isEmpty then acc
    else if text ∈ acc.2 then acc
    else (acc.1 ++ [text], acc.2 ++ [text])

/-- The deduplicated list of cleaned lines `clean_vtt` accumulates. -/
def cleanedLines (s : String) : List (List Char) :=
  ((splitNl s.data).foldl cleanStep ([], [])).1

/-- `clean_vtt`: convert raw VTT subtitle text into clean plaintext, joining the
retained deduplicated lines with single spaces. -/
def clean_vtt (s : String) : String :=
  String.mk (joinSpaceL (cleanedLines s))

/-- First-occurrence deduplication with a seen set, written out from the spec's
words (rule 5 of the Normalizer contract) for comparison with the accumulator
loop of `clean_vtt`. -/
def specDedupFirstOcc (seen : List (List Char)) : List (List Char) → List (List Char)
  | [] => []
  | x :: xs =>
    if x ∈ seen then specDedupFirstOcc seen xs
    else x :: specDedupFirstOcc (seen ++ [x]) xs

/-- The candidate cleaned text lines of a document, in order and before
deduplication: raw lines surviving the skip tests, cleaned, and non-empty. -/
def candidatesOf : List (List Char) → List (List Char)
  | [] => []
  | l :: ls =>
    if rawSkip l then candidatesOf ls
    else
      let t := cleanLine l
      if t.isEmpty then candidatesOf ls else t :: candidatesOf ls

/-- An occurrence of the annotation token `pat` followed by at least one
non-whitespace character, somewhere in `l` (the language of `pat ++ "\S+"`
as a substring). -/
def TokOcc (pat : List Char) (l : List Char) : Prop :=
  ∃ i d, pyIsSpace d = false ∧ (pat ++ [d]) <+: l.drop i

/-- Boolean test for a token occurrence starting at the head of `l`. -/
def tokenAt (pat : List Char) (l : List Char) : Bool :=
  pat.isPrefixOf l &&
    (match l.drop pat.length with
     | [] => false
     | c :: _ => nonspace c)

/-- Boolean scan for a token occurrence anywhere in `l`. -/
def hasToken (pat : List Char) : List Char → Bool
  | [] => false
  | c :: cs => tokenAt pat (c :: cs) || hasToken pat cs

/-- Boolean scan for an inline timing tag `<HH:MM:SS.mmm>` anywhere in `l`. -/
def containsTimeTag : List Char → Bool
  | [] => false
  | c :: cs => isTimeTagAt (c :: cs) || containsTimeTag cs

/-- The character class `[<>:"/\\|?*]` removed by `sanitize_filename`. -/
def badChar (c : Char) : Bool :=
  c == '<' || c == '>' || c == ':' || c == '"' || c == '/' || c == '\\' ||
    c == '|' || c == '?' || c == '*'

/-- `sanitize_filename`: drop the forbidden characters, strip trailing/leading
dots and spaces, truncate to 200 characters, fall back to `untitled`. -/
def sanitize_filename (title : String) : String :=
  let safe := title.data.filter (fun c => !(badChar c))
  let safe2 := stripChars (fun c => c == '.' || c == ' ') safe
  if safe2.isEmpty then "untitled" else String.mk (safe2.take 200)

/-- The subtitle language constant of the script. -/
def SUBTITLE_LANG : String := "en"

/-- `s` starts with `t` (Python `str.startswith`). -/
def strStarts (s t : String) : Bool := t.data.isPrefixOf s.data

/-- `s` ends with `t` (Python `str.endswith`). -/
def strEnds (s t : String) : Bool := t.data.isSuffixOf s.data

/-- Outcome of the per-video subtitle subprocess call: either
`subprocess.TimeoutExpired` was raised, or the call returned (its exit status is
not inspected by the script). -/
inductive FetchOutcome
  | timeout
  | ran
deriving DecidableEq

/-- The caption-file search of `download_subtitle`: first the expected
`{id}.en.vtt` and `{id}.en-orig.vtt` names, then a scan of the scratch
directory for any file starting with the video id and ending in `.vtt`.
The scratch directory is modelled as an association list of
(file name, file content) in listing order. -/
def findVtt (videoId : String) (dir : List (String × String)) : Option String :=
  let cand1 := videoId ++ "." ++ SUBTITLE_LANG ++ ".vtt"
  let cand2 := videoId ++ "." ++ SUBTITLE_LANG ++ "-orig.vtt"
  if dir.any (fun e => e.1 == cand1) then some cand1
  else if dir.any (fun e => e.1 == cand2) then some cand2
  else (dir.map Prod.fst).find? (fun f => strStarts f videoId && strEnds f ".vtt")

/-- `download_subtitle`: given the subprocess outcome and the scratch-directory
contents after the subprocess, return the value the function returns (cleaned
transcript, or `none` for Python `None`) together with the scratch-directory
contents when the call returns.  On timeout the function returns early; when no
caption file is located it also returns early; only after a caption file is
located and read does it delete every scratch file whose name starts with the
video id. -/
def downloadSubtitle (videoId : String) (outcome : FetchOutcome)
    (dir : List (String × String)) : Option String × List (String × String) :=
  match outcome with
  | FetchOutcome.timeout => (none, dir)
  | FetchOutcome.ran =>
    match findVtt videoId dir with
    | none => (none, dir)
    | some p =>
      let content := (List.lookup p dir).getD ""
      (some (clean_vtt content), dir.filter (fun e => !(strStarts e.1 videoId)))

/-- Result of a `subprocess.run` invocation of the external tool. -/
structure SubprocResult where
  returncode : Int
  stdout : String
  stderr : String
deriving DecidableEq

/-- Split a line on its first tab character (Python `line.split("\t", 1)`,
`None` when there is no tab so the line is skipped as malformed). -/
def splitFirstTab : List Char → Option (List Char × List Char)
  | [] => none
  | c :: cs =>
    if c == '\t' then some ([], cs)
    else (splitFirstTab cs).map (fun p => (c :: p.1, p.2))

/-- Parse one stdout line of the enumeration call into a `(video_id, title)`
pair: strip, skip if blank, split on the first tab, skip if there is none,
strip both fields. -/
def parseVideoLine (line : List Char) : Option (String × String) :=
  let l := stripChars pyIsSpace line
  if l.isEmpty then none
  else
    match splitFirstTab l with
    | none => none
    | some (a, b) =>
      some (String.mk (stripChars pyIsSpace a), String.mk (stripChars pyIsSpace b))

/-- `get_all_videos`: on a non-zero exit of the external tool, print the error
(with the tool's raw stderr) and terminate via `sys.exit(1)` (modelled as the
error case); otherwise parse stdout line by line. -/
def get_all_videos (res : SubprocResult) : Except String (List (String × String)) :=
  if res.returncode ≠ 0 then
    Except.error ("[ERROR] Failed to list channel videos:\n" ++ res.stderr)
  else
    Except.ok ((splitNl (stripChars pyIsSpace res.stdout.data)).filterMap parseVideoLine)

/-- Python truthiness of the `transcript` value at `if transcript:` — `None`
and the empty string are both falsy. -/
def pyTruthy : Option String → Bool
  | none => false
  | some t => !(t == "")

/-- The `'=' * 80` separator bar. -/
def eqBar : String := String.mk (List.replicate 80 '=')

/-- Canonical watch URL for a video id. -/
def videoUrl (id : String) : String := "https://www.youtube.com/watch?v=" ++ id

/-- Content of an individual transcript file. -/
def individualText (id title transcript : String) : String :=
  "Title: " ++ title ++ "\n" ++ "Video ID: " ++ id ++ "\n" ++
    "URL: " ++ videoUrl id ++ "\n" ++ eqBar ++ "\n\n" ++ transcript

/-- One section appended to the combined archive for a transcribed video. -/
def sectionText (id title transcript : String) : String :=
  "\n\n" ++ eqBar ++ "\n" ++ "TITLE: " ++ title ++ "\n" ++ "VIDEO ID: " ++ id ++
    "\n" ++ "URL: " ++ videoUrl id ++ "\n" ++ eqBar ++ "\n\n" ++ transcript

/-- Name of an individual transcript file: `<sanitized title> [<id>].txt`. -/
def outFileName (id title : String) : String :=
  sanitize_filename title ++ " [" ++ id ++ "].txt"

/-- The orchestrator's accumulated run state: counters, failed list, written
individual files (name, content) and combined-archive sections, in order. -/
structure RunState where
  successCount : Nat
  failCount : Nat
  failedVideos : List (String × String)
  files : List (String × String)
  sections : List String
deriving DecidableEq

/-- Run state at the start of the loop. -/
def initState : RunState := ⟨0, 0, [], [], []⟩

/-- One iteration of the orchestrator loop for video `v = (id, title)` with
retrieval result `tr`: on a truthy transcript write the individual file and
append a combined-archive section and bump the success count; otherwise bump
the failure count and record the video in the failed list. -/
def processVideo (s : RunState) (v : String × String) (tr : Option String) : RunState :=
  if pyTruthy tr then
    { s with
      successCount := s.successCount + 1,
      files := s.files ++ [(outFileName v.1 v.2, individualText v.1 v.2 (tr.getD ""))],
      sections := s.sections ++ [sectionText v.1 v.2 (tr.getD "")] }
  else
    { s with
      failCount := s.failCount + 1,
      failedVideos := s.failedVideos ++ [v] }

/-- The orchestrator loop from an arbitrary starting state, over the list of
(video, per-video retrieval result) pairs in enumeration order. -/
def runFrom (s : RunState) (items : List ((String × String) × Option String)) : RunState :=
  items.foldl (fun st it => processVideo st it.1 it.2) s

/-- The orchestrator loop of `main` from the initial state. -/
def runBatch (items : List ((String × String) × Option String)) : RunState :=
  runFrom initState items

/-- The failed-list entry contributed by one loop iteration. -/
def failedEntry (it : (String × String) × Option String) : Option (String × String) :=
  if pyTruthy it.2 then none else some it.1

/-- The combined-archive section contributed by one loop iteration. -/
def sectionEntry (it : (String × String) × Option String) : Option String :=
  if pyTruthy it.2 then some (sectionText it.1.1 it.1.2 (it.2.getD "")) else none

/-- The individual file contributed by one loop iteration. -/
def fileEntry (it : (String × String) × Option String) : Option (String × String) :=
  if pyTruthy it.2 then
    some (outFileName it.1.1 it.1.2, individualText it.1.1 it.1.2 (it.2.getD ""))
  else none

/-- The `_manifest.json` object written at run end. -/
structure Manifest where
  channel_url : String
  channel_name : String
  download_date : String
  total_videos : Nat
  transcripts_downloaded : Nat
  transcripts_failed : Nat
  videos : List (String × String × Bool)
deriving DecidableEq

/-- Manifest construction at run end: totals from the final run state and one
`{id, title, has_transcript}` entry per enumerated video, where
`has_transcript` is `(vid, title) not in failed_videos`. -/
def buildManifest (url name date : String) (videos : List (String × String))
    (st : RunState) : Manifest :=
  { channel_url := url
    channel_name := name
    download_date := date
    total_videos := videos.length
    transcripts_downloaded := st.successCount
    transcripts_failed := st.failCount
    videos := videos.map (fun v => (v.1, v.2, decide (v ∉ st.failedVideos))) }

/-- The commented header block of the combined archive. -/
def combinedHeader (channelName : String) (total : Nat) (timestamp url : String) : String :=
  "# " ++ channelName ++ " - Complete YouTube Channel Transcripts\n" ++
    "# Total videos found: " ++ toString total ++ "\n" ++
    "# Downloaded: " ++ timestamp ++ "\n" ++
    "# Source: " ++ url ++ "\n\n"

/-- Observable outcome of a whole `main` run: process exit status, the fatal
error text (if any), and which outputs were created. -/
structure MainOutcome where
  exitCode : Nat
  errorOutput : Option String
  outputDirCreated : Bool
  combinedFile : Option String
  manifest : Option Manifest
  outputFiles : List (String × String)
deriving DecidableEq

/-- `main`, with the enumeration subprocess result and the per-video retrieval
results abstracted as inputs: a failed enumeration exits with status 1 before
any directory or file is created; otherwise the batch runs over the enumerated
videos and the combined file, individual files and manifest are produced. -/
def mainRun (enumRes : SubprocResult) (fetch : String → Option String)
    (channelUrl channelName timestamp : String) : MainOutcome :=
  match get_all_videos enumRes with
  | Except.error msg =>
    { exitCode := 1, errorOutput := some msg, outputDirCreated := false,
      combinedFile := none, manifest := none, outputFiles := [] }
  | Except.ok videos =>
    let items := videos.map (fun v => (v, fetch v.1))
    let st := runBatch items
    { exitCode := 0
      errorOutput := none
      outputDirCreated := true
      combinedFile := some (combinedHeader channelName videos.length timestamp channelUrl ++
        String.join st.sections)
      manifest := some (buildManifest channelUrl channelName timestamp videos st)
      outputFiles := st.files }

/-- A caption document with only the header and metadata lines. -/
def headerOnlyVtt : String := "WEBVTT\nKind: captions\nLanguage: en\n"

/-- Caption document for the first video of the three-video scenario. -/
def vttA : String := "WEBVTT\n\n00:00:00.000 --> 00:00:01.000\nAlpha\n"

/-- Caption document for the third video of the three-video scenario. -/
def vttB : String := "WEBVTT\n\n00:00:00.000 --> 00:00:01.000\nBeta\n"

/-- The three-video scenario of the spec: retrieval succeeds for videos 1 and
3 and times out for video 2. -/
def scenarioItems : List ((String × String) × Option String) :=
  [ (("v1", "Video One"), (downloadSubtitle "v1" FetchOutcome.ran [("v1.en.vtt", vttA)]).1),
    (("v2", "Video Two"), (downloadSubtitle "v2" FetchOutcome.timeout []).1),
    (("v3", "Video Three"), (downloadSubtitle "v3" FetchOutcome.ran [("v3.en.vtt", vttB)]).1) ]

/-- Concrete items used to witness the manifest-consistency theorem. -/
def witnessItems : List ((String × String) × Option String) :=
  [(("a", "A"), some "x"), (("b", "B"), none)]

/-! ## Orchestrator loop: closed forms -/

theorem runFrom_successCount (items : List ((String × String) × Option String)) :
    ∀ s : RunState, (runFrom s items).successCount =
      s.successCount + items.countP (fun it => pyTruthy it.2) := by
  induction items with
  | nil => intro s; simp [runFrom]
  | cons it r ih =>
    intro s
    show (runFrom (processVideo s it.1 it.2) r).successCount = _
    rw [ih]
    cases h : pyTruthy it.2 <;> simp [processVideo, h, List.countP_cons] <;> omega

theorem runFrom_failCount (items : List ((String × String) × Option String)) :
    ∀ s : RunState, (runFrom s items).failCount =
      s.failCount + items.countP (fun it => !(pyTruthy it.2)) := by
  induction items with
  | nil => intro s; simp [runFrom]
  | cons it r ih =>
    intro s
    show (runFrom (processVideo s it.1 it.2) r).failCount = _
    rw [ih]
    cases h : pyTruthy it.2 <;> simp [processVideo, h, List.countP_cons] <;> omega

theorem runFrom_failedVideos (items : List ((String × String) × Option String)) :
    ∀ s : RunState, (runFrom s items).failedVideos =
      s.failedVideos ++ items.filterMap failedEntry := by
  induction items with
  | nil => intro s; simp [runFrom]
  | cons it r ih =>
    intro s
    show (runFrom (processVideo s it.1 it.2) r).failedVideos = _
    rw [ih]
    cases h : pyTruthy it.2 <;>
      simp [processVideo, h, failedEntry, List.filterMap_cons, List.append_assoc]

theorem runFrom_sections (items : List ((String × String) × Option String)) :
    ∀ s : RunState, (runFrom s items).sections =
      s.sections ++ items.filterMap sectionEntry := by
  induction items with
  | nil => intro s; simp [runFrom]
  | cons it r ih =>
    intro s
    show (runFrom (processVideo s it.1 it.2) r).sections = _
    rw [ih]
    cases h : pyTruthy it.2 <;>
      simp [processVideo, h, sectionEntry, List.filterMap_cons, List.append_assoc]

theorem runFrom_files (items : List ((String × String) × Option String)) :
    ∀ s : RunState, (runFrom s items).files =
      s.files ++ items.filterMap fileEntry := by
  induction items with
  | nil => intro s; simp [runFrom]
  | cons it r ih =>
    intro s
    show (runFrom (processVideo s it.1 it.2) r).files = _
    rw [ih]
    cases h : pyTruthy it.2 <;>
      simp [processVideo, h, fileEntry, List.filterMap_cons, List.append_assoc]

theorem failedEntry_mem_map {items : List ((String × String) × Option String)}
    {x : String × String} (h : x ∈ items.filterMap failedEntry) :
    x ∈ items.map (fun it => it.1) := by
  rw [List.mem_filterMap] at h
  obtain ⟨a, ha, hfa⟩ := h
  unfold failedEntry at hfa
  by_cases htr : pyTruthy a.2 = true
  · simp [htr] at hfa
  · simp [htr] at hfa
    exact hfa ▸ List.mem_map_of_mem (fun it => it.1) ha

theorem countFlags (items : List ((String × String) × Option String))
    (h : (items.map (fun it => it.1)).Nodup) :
    (items.map (fun it => it.1)).countP
        (fun v => decide (v ∉ items.filterMap failedEntry)) =
      items.countP (fun it => pyTruthy it.2) := by
  induction items with
  | nil => simp
  | cons it r ih =>
    rw [List.map_cons, List.nodup_cons] at h
    obtain ⟨hni, hnd⟩ := h
    have hsame : ∀ v ∈ r.map (fun it => it.1),
        (decide (v ∉ (it :: r).filterMap failedEntry) : Bool) ↔
          (decide (v ∉ r.filterMap failedEntry) : Bool) := by
      intro v hv
      have hvne : v ≠ it.1 := fun he => hni (he ▸ hv)
      rw [List.filterMap_cons]
      cases htr : pyTruthy it.2 <;> simp [failedEntry, htr, hvne]
    cases htr : pyTruthy it.2
    · -- failed video: head flag is false
      have hhead : (decide (it.1 ∉ (it :: r).filterMap failedEntry) : Bool) = false := by
        simp [List.filterMap_cons, failedEntry, htr]
      rw [List.map_cons, List.countP_cons, List.countP_cons, hhead,
        List.countP_congr hsame, ih hnd]
      simp [htr]
    · -- successful video: head flag is true
      have hhead : (decide (it.1 ∉ (it :: r).filterMap failedEntry) : Bool) = true := by
        have : it.1 ∉ (it :: r).filterMap failedEntry := by
          intro hmem
          rw [List.filterMap_cons] at hmem
          simp only [failedEntry, htr, if_pos] at hmem
          exact hni (failedEntry_mem_map hmem)
        simpa using this
      rw [List.map_cons, List.countP_cons, List.countP_cons, hhead,
        List.countP_congr hsame, ih hnd]
      simp [htr]

/-- C1 — For every run over an enumerated video list whose `(id, title)` pairs
are pairwise distinct, the manifest written at run end satisfies
`transcripts_downloaded + transcripts_failed = total_videos`, and the number of
`videos` entries with `has_transcript = true` equals `transcripts_downloaded`:
the per-video flags partition the video list consistently with the counts. -/
theorem manifest_partition_consistent (url name date : String)
    (items : List ((String × String) × Option String))
    (h : (items.map (fun it => it.1)).Nodup) :
    (runBatch items).successCount + (runBatch items).failCount = items.length ∧
    ((buildManifest url name date (items.map (fun it => it.1)) (runBatch items)).videos.countP
        (fun e => e.2.2)) = (runBatch items).successCount := by
  constructor
  · rw [runBatch, runFrom_successCount, runFrom_failCount]
    show 0 + _ + (0 + _) = _
    have hsum : items.countP (fun it => pyTruthy it.2) +
        items.countP (fun it => !(pyTruthy it.2)) = items.length := by
      clear h
      induction items with
      | nil => simp
      | cons it r ih => cases htr : pyTruthy it.2 <;> simp [List.countP_cons, htr] <;> omega
    omega
  · show ((items.map (fun it => it.1)).map
        (fun v => (v.1, v.2, decide (v ∉ (runBatch items).failedVideos)))).countP
          (fun e => e.2.2) = _
    rw [List.countP_map, runBatch, runFrom_failedVideos, runFrom_successCount]
    show (items.map (fun it => it.1)).countP
        (fun v => decide (v ∉ [] ++ items.filterMap failedEntry)) = _
    simp only [List.nil_append]
    rw [countFlags items h]
    simp [initState]

/-- Witness for the manifest-consistency theorem at a concrete two-video run. -/
theorem manifest_partition_consistent_witness :
    ((witnessItems.map (fun it => it.1)).Nodup) ∧
    ((runBatch witnessItems).successCount + (runBatch witnessItems).failCount =
        witnessItems.length ∧
      ((buildManifest "u" "n" "d" (witnessItems.map (fun it => it.1))
          (runBatch witnessItems)).videos.countP (fun e => e.2.2)) =
        (runBatch witnessItems).successCount) :=
  ⟨by decide, manifest_partition_consistent "u" "n" "d" witnessItems (by decide)⟩

/-- C2 — Scenario A: the normalizer on the concrete two-cue rolling-caption
document yields exactly `"Hello world Next line"`. -/
theorem clean_vtt_scenarioA :
    clean_vtt "WEBVTT\n\n00:00:00.000 --> 00:00:02.000\nHello world\n\n00:00:01.500 --> 00:00:03.000\nHello world\nNext line\n" =
      "Hello world Next line" := by decide

/-! ## Normalizer: deduplication (C3) -/

theorem count_one_of_nodup_mem {α : Type} [BEq α] [LawfulBEq α] {a : α} {l : List α}
    (hnd : l.Nodup) (ha : a ∈ l) : l.count a = 1 := by
  induction l with
  | nil => cases ha
  | cons b bs ih =>
    rw [List.nodup_cons] at hnd
    rw [List.count_cons]
    rcases List.mem_cons.mp ha with he | hbs
    · subst he
      have hz : bs.count a = 0 := List.count_eq_zero.mpr hnd.1
      simp [hz]
    · have hne : b ≠ a := fun hba => hnd.1 (hba ▸ hbs)
      have : (b == a) = false := beq_eq_false_iff_ne.mpr hne
      simp [this, ih hnd.2 hbs]

theorem foldl_cleanStep (lines : List (List Char)) :
    ∀ cl sn, lines.foldl cleanStep (cl, sn) =
      (cl ++ specDedupFirstOcc sn (candidatesOf lines),
       sn ++ specDedupFirstOcc sn (candidatesOf lines)) := by
  induction lines with
  | nil => intro cl sn; simp [candidatesOf, specDedupFirstOcc]
  | cons l ls ih =>
    intro cl sn
    show List.foldl cleanStep (cleanStep (cl, sn) l) ls = _
    by_cases h1 : rawSkip l = true
    · simp only [cleanStep, candidatesOf, h1, if_true]
      exact ih cl sn
    · rw [Bool.not_eq_true] at h1
      by_cases h2 : (cleanLine l).isEmpty = true
      · simp only [cleanStep, candidatesOf, h1, h2, Bool.false_eq_true, if_false, if_true]
        exact ih cl sn
      · rw [Bool.not_eq_true] at h2
        by_cases h3 : cleanLine l ∈ sn
        · simp only [cleanStep, candidatesOf, specDedupFirstOcc, h1, h2, h3,
            Bool.false_eq_true, if_false, if_true]
          exact ih cl sn
        · simp only [cleanStep, candidatesOf, specDedupFirstOcc, h1, h2, h3,
            Bool.false_eq_true, if_false, if_true]
          rw [ih (cl ++ [cleanLine l]) (sn ++ [cleanLine l])]
          simp [List.append_assoc]

theorem specDedup_mem :
    ∀ (l : List (List Char)) (sn : List (List Char)) (x : List Char),
      x ∈ specDedupFirstOcc sn l ↔ (x ∈ l ∧ x ∉ sn) := by
  intro l
  induction l with
  | nil => intro sn x; simp [specDedupFirstOcc]
  | cons y ys ih =>
    intro sn x
    by_cases hy : y ∈ sn
    · simp only [specDedupFirstOcc, hy, if_true, List.mem_cons]
      rw [ih]
      constructor
      · rintro ⟨hx, hns⟩; exact ⟨Or.inr hx, hns⟩
      · rintro ⟨hor, hns⟩
        rcases hor with he | hx
        · exact absurd (he ▸ hy) hns
        · exact ⟨hx, hns⟩
    · simp only [specDedupFirstOcc, hy, if_false, List.mem_cons]
      constructor
      · rintro (he | hx)
        · exact ⟨Or.inl he, he ▸ hy⟩
        · rw [ih] at hx
          obtain ⟨hys, hns⟩ := hx
          rw [List.mem_append] at hns
          push_neg at hns
          exact ⟨Or.inr hys, hns.1⟩
      · rintro ⟨he | hx, hns⟩
        · exact Or.inl he
        · by_cases hxy : x = y
          · exact Or.inl hxy
          · refine Or.inr ?_
            rw [ih, List.mem_append]
            exact ⟨hx, by simp [hns, hxy]⟩

theorem specDedup_nodup :
    ∀ (l : List (List Char)) (sn : List (List Char)), (specDedupFirstOcc sn l).Nodup := by
  intro l
  induction l with
  | nil => intro sn; simp [specDedupFirstOcc]
  | cons y ys ih =>
    intro sn
    by_cases hy : y ∈ sn
    · simpa [specDedupFirstOcc, hy] using ih sn
    · simp only [specDedupFirstOcc, hy, if_false, List.nodup_cons]
      refine ⟨fun hmem => ?_, ih (sn ++ [y])⟩
      rw [specDedup_mem] at hmem
      exact hmem.2 (by simp)

/-- C3 — The normalizer's retained lines are exactly the candidate cleaned
lines deduplicated by exact stripped text in first-occurrence order, and any
line text occurring in two or more cue blocks appears exactly once in the
output. -/
theorem clean_vtt_dedup_first_occurrence (vtt : String) :
    cleanedLines vtt = specDedupFirstOcc [] (candidatesOf (splitNl vtt.data)) ∧
    ∀ x : List Char, 2 ≤ (candidatesOf (splitNl vtt.data)).count x →
      (cleanedLines vtt).count x = 1 := by
  have hmain : cleanedLines vtt = specDedupFirstOcc [] (candidatesOf (splitNl vtt.data)) := by
    unfold cleanedLines
    rw [foldl_cleanStep]
    simp
  refine ⟨hmain, fun x hx => ?_⟩
  have hmem : x ∈ candidatesOf (splitNl vtt.data) := by
    have hpos : 0 < (candidatesOf (splitNl vtt.data)).count x := by omega
    exact List.count_pos_iff.mp hpos
  have hxin : x ∈ cleanedLines vtt := by
    rw [hmain, specDedup_mem]
    exact ⟨hmem, by simp⟩
  have hnd : (cleanedLines vtt).Nodup := by
    rw [hmain]; exact specDedup_nodup _ _
  exact count_one_of_nodup_mem hnd hxin

/-- Witness for the dedup theorem on the two-cue rolling-caption document. -/
theorem clean_vtt_dedup_first_occurrence_witness :
    2 ≤ (candidatesOf (splitNl ("WEBVTT\n\n00:00:00.000 --> 00:00:02.000\nHello world\n\n00:00:01.500 --> 00:00:03.000\nHello world\nNext line\n" : String).data)).count "Hello world".data ∧
    (cleanedLines "WEBVTT\n\n00:00:00.000 --> 00:00:02.000\nHello world\n\n00:00:01.500 --> 00:00:03.000\nHello world\nNext line\n").count "Hello world".data = 1 :=
  ⟨by decide,
   (clean_vtt_dedup_first_occurrence
      "WEBVTT\n\n00:00:00.000 --> 00:00:02.000\nHello world\n\n00:00:01.500 --> 00:00:03.000\nHello world\nNext line\n").2
     "Hello world".data (by decide)⟩

/-! ## Caption retriever: scratch-directory frame effect (C4) -/

/-- C4 counterexample — on the caption-file-not-located outcome the retriever
returns with a scratch file whose name starts with the video id still present:
the claimed unconditional cleanup does not happen. -/
theorem download_subtitle_leftover_counterexample :
    (downloadSubtitle "v1" FetchOutcome.ran [("v1.en.srt", "x")]).1 = none ∧
    (downloadSubtitle "v1" FetchOutcome.ran [("v1.en.srt", "x")]).2 = [("v1.en.srt", "x")] ∧
    strStarts "v1.en.srt" "v1" = true := by decide

/-- C4 amended — the retriever deletes the scratch files whose names start
with the video id exactly when it returns a transcript (a caption file was
located and read); on the timeout and not-located outcomes it returns with the
scratch directory unchanged. -/
theorem download_subtitle_frame_effect (videoId : String) (outcome : FetchOutcome)
    (dir : List (String × String)) :
    (downloadSubtitle videoId outcome dir).2 =
      if (downloadSubtitle videoId outcome dir).1.isSome then
        dir.filter (fun e => !(strStarts e.1 videoId))
      else dir := by
  cases outcome with
  | timeout => simp [downloadSubtitle]
  | ran =>
    cases h : findVtt videoId dir with
    | none => simp [downloadSubtitle, h]
    | some p => simp [downloadSubtitle, h]

/-! ## Channel enumerator: fatal failure (C5) -/

/-- C5 — If the enumeration subprocess exits non-zero, the run terminates with
exit status 1, the error output carries the tool's raw stderr, and no output
directory, combined file, manifest or individual file is created. -/
theorem enumeration_failure_fatal (res : SubprocResult) (fetch : String → Option String)
    (url name ts : String) (h : res.returncode ≠ 0) :
    mainRun res fetch url name ts =
      { exitCode := 1,
        errorOutput := some ("[ERROR] Failed to list channel videos:\n" ++ res.stderr),
        outputDirCreated := false, combinedFile := none, manifest := none,
        outputFiles := [] } := by
  unfold mainRun get_all_videos
  rw [if_pos h]

/-- Witness for the fatal-enumeration theorem at a concrete failing result. -/
theorem enumeration_failure_fatal_witness :
    ((⟨1, "", "boom"⟩ : SubprocResult).returncode ≠ 0) ∧
    mainRun ⟨1, "", "boom"⟩ (fun _ => none) "u" "n" "t" =
      { exitCode := 1,
        errorOutput := some ("[ERROR] Failed to list channel videos:\n" ++
          (⟨1, "", "boom"⟩ : SubprocResult).stderr),
        outputDirCreated := false, combinedFile := none, manifest := none,
        outputFiles := [] } :=
  ⟨by decide, enumeration_failure_fatal ⟨1, "", "boom"⟩ (fun _ => none) "u" "n" "t" (by decide)⟩

/-! ## Combined archive sections (C6) -/

/-- C6 — The combined archive holds exactly one section per video whose
retrieval produced a truthy transcript, in enumeration order (a `filterMap`
of the enumerated list); in the three-video scenario where video 2 times out,
the archive has exactly the two sections for videos 1 and 3 in order, the
manifest reports totals 3/2/1, and the failed list holds only video 2. -/
theorem combined_sections_order :
    (∀ items : List ((String × String) × Option String),
      (runBatch items).sections = items.filterMap sectionEntry) ∧
    (runBatch scenarioItems).sections =
      [sectionText "v1" "Video One" "Alpha", sectionText "v3" "Video Three" "Beta"] ∧
    (buildManifest "u" "n" "t" (scenarioItems.map (fun it => it.1))
        (runBatch scenarioItems)).total_videos = 3 ∧
    (buildManifest "u" "n" "t" (scenarioItems.map (fun it => it.1))
        (runBatch scenarioItems)).transcripts_downloaded = 2 ∧
    (buildManifest "u" "n" "t" (scenarioItems.map (fun it => it.1))
        (runBatch scenarioItems)).transcripts_failed = 1 ∧
    (runBatch scenarioItems).failedVideos = [("v2", "Video Two")] := by
  refine ⟨fun items => ?_, by decide, by decide, by decide, by decide, by decide⟩
  rw [runBatch, runFrom_sections]
  simp [initState]

/-! ## Filename sanitization (C7) -/

theorem mem_stripChars {p : Char → Bool} {l : List Char} {c : Char}
    (h : c ∈ stripChars p l) : c ∈ l := by
  unfold stripChars at h
  rw [List.mem_reverse] at h
  have h2 : c ∈ (l.dropWhile p).reverse :=
    (List.dropWhile_sublist p).mem h
  rw [List.mem_reverse] at h2
  exact (List.dropWhile_sublist p).mem h2

/-- C7 — `sanitize_filename` always yields a non-empty string of at most 200
characters containing none of the forbidden characters, and maps the scenario
title to exactly `AB Test`. -/
theorem sanitize_filename_bounds (title : String) :
    (sanitize_filename title).data.all (fun c => !(badChar c)) = true ∧
    (sanitize_filename title).length ≤ 200 ∧
    0 < (sanitize_filename title).length ∧
    sanitize_filename "A/B: \"Test\"?*" = "AB Test" := by
  refine ⟨?_, ?_, ?_, by decide⟩
  · unfold sanitize_filename
    by_cases hemp : (stripChars (fun c => c == '.' || c == ' ')
        (title.data.filter (fun c => !(badChar c)))).isEmpty = true
    · rw [if_pos hemp]; decide
    · rw [if_neg hemp]
      rw [List.all_eq_true]
      intro c hc
      have h1 : c ∈ stripChars (fun c => c == '.' || c == ' ')
          (title.data.filter (fun c => !(badChar c))) := by
        have : c ∈ (String.mk _).data := hc
        exact List.mem_of_mem_take this
      have h2 : c ∈ title.data.filter (fun c => !(badChar c)) := mem_stripChars h1
      exact (List.mem_filter.mp h2).2
  · unfold sanitize_filename
    by_cases hemp : (stripChars (fun c => c == '.' || c == ' ')
        (title.data.filter (fun c => !(badChar c)))).isEmpty = true
    · rw [if_pos hemp]; decide
    · rw [if_neg hemp]
      simp only [String.length_mk, List.length_take]
      omega
  · unfold sanitize_filename
    by_cases hemp : (stripChars (fun c => c == '.' || c == ' ')
        (title.data.filter (fun c => !(badChar c)))).isEmpty = true
    · rw [if_pos hemp]; decide
    · rw [if_neg hemp]
      simp only [String.length_mk, List.length_take]
      rw [Bool.not_eq_true, List.isEmpty_eq_false] at hemp
      have : 0 < (stripChars (fun c => c == '.' || c == ' ')
          (title.data.filter (fun c => !(badChar c)))).length :=
        List.length_pos.mpr hemp
      omega

/-! ## Normalizer identity on clean single lines (C9) -/

/-- C9 counterexample — the normalizer is not the identity on its own image:
styling-tag removal can synthesize a header-prefixed line, which a second
normalization discards. -/
theorem clean_vtt_not_idempotent_counterexample :
    clean_vtt (clean_vtt "<c>WEBVTT x") ≠ clean_vtt "<c>WEBVTT x" := by decide

theorem splitNl_single {l : List Char} (h : '\n' ∉ l) : splitNl l = [l] := by
  induction l with
  | nil => rfl
  | cons c cs ih =>
    rw [List.mem_cons] at h
    push_neg at h
    have hcs := ih h.2
    have hc : (c == '\n') = false := by
      rw [beq_eq_false_iff_ne]
      exact fun he => h.1 he.symm
    simp [splitNl, hc, hcs]

/-- C9 amended — normalizing a single-line document that passes the raw skip
tests and on which per-line cleaning is the identity (no markup, no
surrounding whitespace) returns it unchanged; idempotence on the full image
fails by the counterexample. -/
theorem clean_vtt_identity_on_clean_lines (s : String)
    (h1 : '\n' ∉ s.data) (h2 : rawSkip s.data = false)
    (h3 : cleanLine s.data = s.data) :
    clean_vtt s = s := by
  have hne : s.data ≠ [] := by
    intro h0
    rw [h0] at h2
    exact absurd h2 (by decide)
  unfold clean_vtt cleanedLines
  rw [splitNl_single h1]
  simp only [List.foldl_cons, List.foldl_nil]
  unfold cleanStep
  rw [h2]
  simp only [Bool.false_eq_true, if_false, h3]
  have hemp : s.data.isEmpty = false := by
    rw [List.isEmpty_eq_false]; exact hne
  rw [hemp]
  simp only [Bool.false_eq_true, if_false, List.not_mem_nil, if_neg (List.not_mem_nil _)]
  show String.mk (joinSpaceL ([] ++ [s.data])) = s
  rfl

/-- Witness for the identity theorem on a concrete clean line. -/
theorem clean_vtt_identity_on_clean_lines_witness :
    ('\n' ∉ ("Hello world" : String).data) ∧
    rawSkip ("Hello world" : String).data = false ∧
    cleanLine ("Hello world" : String).data = ("Hello world" : String).data ∧
    clean_vtt "Hello world" = "Hello world" :=
  ⟨by decide, by decide, by decide,
   clean_vtt_identity_on_clean_lines "Hello world" (by decide) (by decide) (by decide)⟩

/-! ## Empty transcript at the orchestrator boundary (C10) -/

/-- C10 — A caption file holding only header and metadata normalizes to the
empty string, the retriever then returns `some ""` (after deleting the scratch
files), and the orchestrator's truthiness test sends the video to the failure
branch: failure count and failed list are updated and no individual file or
combined-archive section is produced. -/
theorem empty_transcript_failure_branch :
    clean_vtt headerOnlyVtt = "" ∧
    downloadSubtitle "vid" FetchOutcome.ran [("vid.en.vtt", headerOnlyVtt)] = (some "", []) ∧
    ∀ (s : RunState) (v : String × String),
      processVideo s v (some "") =
        { s with failCount := s.failCount + 1, failedVideos := s.failedVideos ++ [v] } := by
  refine ⟨by decide, by decide, fun s v => ?_⟩
  simp [processVideo, pyTruthy]

/-! ## Normalizer strip property (C8): token-occurrence infrastructure -/

theorem consPre {α : Type} {a b : α} {as bs : List α} :
    (a :: as) <+: (b :: bs) ↔ a = b ∧ as <+: bs := by
  constructor
  · rintro ⟨t, ht⟩
    rw [List.cons_append] at ht
    injection ht with h1 h2
    exact ⟨h1, t, h2⟩
  · rintro ⟨rfl, t, ht⟩
    exact ⟨t, by rw [List.cons_append, ht]⟩

theorem isPre_iff {α : Type} [BEq α] [LawfulBEq α] :
    ∀ {l₁ l₂ : List α}, l₁.isPrefixOf l₂ = true ↔ l₁ <+: l₂ := by
  intro l₁
  induction l₁ with
  | nil =>
    intro l₂
    simp only [List.isPrefixOf]
    exact ⟨fun _ => ⟨l₂, rfl⟩, fun _ => trivial⟩
  | cons a as ih =>
    intro l₂
    cases l₂ with
    | nil =>
      simp only [List.isPrefixOf]
      constructor
      · intro h; cases h
      · rintro ⟨t, ht⟩; cases ht
    | cons b bs =>
      rw [List.isPrefixOf, Bool.and_eq_true, consPre, ih]
      constructor
      · rintro ⟨h1, h2⟩; exact ⟨eq_of_beq h1, h2⟩
      · rintro ⟨rfl, h2⟩; exact ⟨by simp, h2⟩

theorem tokNil {pat : List Char} : ¬ TokOcc pat [] := by
  rintro ⟨i, d, _, t, ht⟩
  rw [List.drop_nil] at ht
  have := congrArg List.length ht
  simp at this

theorem tokShift {pat : List Char} {c : Char} {l : List Char}
    (h : TokOcc pat l) : TokOcc pat (c :: l) := by
  obtain ⟨i, d, hd, hp⟩ := h
  exact ⟨i + 1, d, hd, by simpa using hp⟩

theorem tokConsElim {pat : List Char} {c : Char} {l : List Char}
    (h : TokOcc pat (c :: l)) :
    (∃ d, pyIsSpace d = false ∧ (pat ++ [d]) <+: (c :: l)) ∨ TokOcc pat l := by
  obtain ⟨i, d, hd, hp⟩ := h
  cases i with
  | zero => exact Or.inl ⟨d, hd, by simpa using hp⟩
  | succ j => exact Or.inr ⟨j, d, hd, by simpa using hp⟩

theorem tokOfSuffix {pat : List Char} {s l : List Char}
    (hs : s <:+ l) (h : TokOcc pat s) : TokOcc pat l := by
  obtain ⟨u, hu⟩ := hs
  obtain ⟨i, d, hd, hp⟩ := h
  refine ⟨u.length + i, d, hd, ?_⟩
  rw [← hu, ← List.drop_drop, List.drop_left]
  exact hp

theorem dropAppendLe {α : Type} :
    ∀ (s : List α) (v : List α) (i : Nat), i ≤ s.length →
      (s ++ v).drop i = s.drop i ++ v := by
  intro s
  induction s with
  | nil =>
    intro v i hi
    have : i = 0 := Nat.le_zero.mp hi
    simp [this]
  | cons c s' ih =>
    intro v i hi
    cases i with
    | zero => simp
    | succ j =>
      rw [List.cons_append, List.drop_succ_cons, List.drop_succ_cons]
      exact ih v j (by simpa using hi)

theorem tokAppendRight {pat : List Char} {s v : List Char}
    (h : TokOcc pat s) : TokOcc pat (s ++ v) := by
  obtain ⟨i, d, hd, hp⟩ := h
  by_cases hi : i ≤ s.length
  · refine ⟨i, d, hd, ?_⟩
    rw [dropAppendLe s v i hi]
    obtain ⟨t, ht⟩ := hp
    exact ⟨t ++ v, by rw [← List.append_assoc, ht]⟩
  · exfalso
    have hdrop : s.drop i = [] := List.drop_eq_nil_of_le (by omega)
    rw [hdrop] at hp
    obtain ⟨t, ht⟩ := hp
    have := congrArg List.length ht
    simp at this

theorem tokInfix {pat : List Char} {s u v l : List Char}
    (hl : l = u ++ (s ++ v)) (h : TokOcc pat s) : TokOcc pat l :=
  tokOfSuffix ⟨u, hl.symm⟩ (tokAppendRight h)

theorem dropWhileSuffixEx {α : Type} (p : α → Bool) :
    ∀ l : List α, ∃ u, l = u ++ l.dropWhile p := by
  intro l
  induction l with
  | nil => exact ⟨[], rfl⟩
  | cons c cs ih =>
    by_cases hc : p c = true
    · obtain ⟨u, hu⟩ := ih
      refine ⟨c :: u, ?_⟩
      rw [List.dropWhile_cons, if_pos hc, List.cons_append, ← hu]
    · refine ⟨[], ?_⟩
      rw [List.dropWhile_cons, if_neg hc, List.nil_append]

theorem stripDecomp (p : Char → Bool) (l : List Char) :
    ∃ u v, l = u ++ (stripChars p l ++ v) := by
  obtain ⟨u, hu⟩ := dropWhileSuffixEx p l
  obtain ⟨w, hw⟩ := dropWhileSuffixEx p (l.dropWhile p).reverse
  refine ⟨u, w.reverse, ?_⟩
  have h2 : l.dropWhile p = stripChars p l ++ w.reverse := by
    have h3 := congrArg List.reverse hw
    rw [List.reverse_reverse, List.reverse_append] at h3
    exact h3
  conv_lhs => rw [hu, h2]

theorem tokStripChars {pat : List Char} {p : Char → Bool} {l : List Char}
    (h : TokOcc pat (stripChars p l)) : TokOcc pat l := by
  obtain ⟨u, v, huv⟩ := stripDecomp p l
  exact tokInfix huv h

theorem preSplitWS {w : Char} (hw : pyIsSpace w = true) :
    ∀ (a X b : List Char), X.all nonspace = true → X <+: (a ++ w :: b) → X <+: a := by
  intro a
  induction a with
  | nil =>
    intro X b hns hp
    cases X with
    | nil => exact ⟨[], rfl⟩
    | cons x X' =>
      rw [List.nil_append, consPre] at hp
      rw [List.all_cons, Bool.and_eq_true] at hns
      exfalso
      have : nonspace w = true := hp.1 ▸ hns.1
      rw [nonspace, hw] at this
      cases this
  | cons y a' ih =>
    intro X b hns hp
    cases X with
    | nil => exact ⟨y :: a', rfl⟩
    | cons x X' =>
      rw [List.cons_append, consPre] at hp
      rw [List.all_cons, Bool.and_eq_true] at hns
      obtain ⟨rfl, hp'⟩ := hp
      exact consPre.mpr ⟨rfl, ih X' b hns.2 hp'⟩

theorem subTok_pullback (t0 : Char) (ts : List Char) :
    ∀ (l S : List Char), S.all nonspace = true →
      ((S <+: subTok t0 ts false l → S <+: l) ∧
       (S <+: subTok t0 ts true l → S = [])) := by
  intro l
  induction l with
  | nil =>
    intro S hns
    constructor
    · intro h; simpa [subTok] using h
    · intro h
      obtain ⟨t, ht⟩ := h
      simp only [subTok] at ht
      exact (List.append_eq_nil.mp ht).1
  | cons c cs ih =>
    intro S hns
    constructor
    · -- normal mode
      intro h
      by_cases hm : (c == t0 && ts.isPrefixOf cs &&
          (match cs.drop ts.length with | d :: _ => nonspace d | [] => false)) = true
      · rw [subTok, if_neg (by simp), if_pos hm] at h
        have := (ih S hns).2 h
        exact this ▸ ⟨c :: cs, rfl⟩
      · rw [subTok, if_neg (by simp), if_neg hm] at h
        cases S with
        | nil => exact ⟨c :: cs, rfl⟩
        | cons x S' =>
          rw [consPre] at h
          rw [List.all_cons, Bool.and_eq_true] at hns
          exact consPre.mpr ⟨h.1, (ih S' hns.2).1 h.2⟩
    · -- swallow mode
      intro h
      by_cases hsp : nonspace c = true
      · rw [subTok, if_pos (by simp), if_pos hsp] at h
        exact (ih S hns).2 h
      · rw [subTok, if_pos (by simp), if_neg hsp] at h
        cases S with
        | nil => rfl
        | cons x S' =>
          rw [consPre] at h
          rw [List.all_cons, Bool.and_eq_true] at hns
          exfalso
          exact hsp (h.1 ▸ hns.1)


theorem subTok_noOcc (t0 : Char) (ts : List Char) (ht0 : pyIsSpace t0 = false)
    (hts : ts.all nonspace = true) :
    ∀ l : List Char,
      ¬ TokOcc (t0 :: ts) (subTok t0 ts false l) ∧
      ¬ TokOcc (t0 :: ts) (subTok t0 ts true l) := by
  intro l
  induction l with
  | nil => exact ⟨by simpa [subTok] using tokNil, by simpa [subTok] using tokNil⟩
  | cons c cs ih =>
    constructor
    · -- normal mode
      intro hocc
      by_cases hm : (c == t0 && ts.isPrefixOf cs &&
          (match cs.drop ts.length with | d :: _ => nonspace d | [] => false)) = true
      · rw [subTok, if_neg (by simp), if_pos hm] at hocc
        exact ih.2 hocc
      · rw [subTok, if_neg (by simp), if_neg hm] at hocc
        rcases tokConsElim hocc with ⟨d, hd, hp⟩ | htail
        · -- a head occurrence would mean the match test had succeeded
          rw [List.cons_append, consPre] at hp
          obtain ⟨heq, hp'⟩ := hp
          have hnsd : nonspace d = true := by rw [nonspace, hd]; rfl
          have hall : (ts ++ [d]).all nonspace = true := by
            rw [List.all_append]
            simp [hts, hnsd]
          have hpre : (ts ++ [d]) <+: cs :=
            (subTok_pullback t0 ts cs (ts ++ [d]) hall).1 hp'
          obtain ⟨t, ht⟩ := hpre
          have hcs : cs = ts ++ (d :: t) := by
            rw [← ht, List.append_assoc]; rfl
          apply hm
          have h1 : (c == t0) = true := by rw [← heq]; simp
          have h2 : ts.isPrefixOf cs = true :=
            isPre_iff.mpr ⟨d :: t, hcs.symm⟩
          have h3 : cs.drop ts.length = d :: t := by
            rw [hcs, List.drop_left]
          rw [h1, h2, h3, Bool.true_and, Bool.true_and]
          exact hnsd
        · exact ih.1 htail
    · -- swallow mode
      intro hocc
      by_cases hsp : nonspace c = true
      · rw [subTok, if_pos (by simp), if_pos hsp] at hocc
        exact ih.2 hocc
      · rw [subTok, if_pos (by simp), if_neg hsp] at hocc
        rcases tokConsElim hocc with ⟨d, hd, hp⟩ | htail
        · -- the pattern head `t0` is non-whitespace but `c` is whitespace
          rw [List.cons_append, consPre] at hp
          have hc : pyIsSpace c = true := by
            rcases Bool.eq_false_or_eq_true (pyIsSpace c) with htr | hf
            · exact htr
            · exact absurd (by rw [nonspace, hf]; rfl) hsp
          rw [← hp.1] at hc
          rw [ht0] at hc
          cases hc
        · exact ih.1 htail

theorem subTok_noCreate (t0 : Char) (ts : List Char)
    {q0 : Char} {qs : List Char} (hq : (q0 :: qs).all nonspace = true) :
    ∀ l : List Char,
      (TokOcc (q0 :: qs) (subTok t0 ts false l) → TokOcc (q0 :: qs) l) ∧
      (TokOcc (q0 :: qs) (subTok t0 ts true l) → TokOcc (q0 :: qs) l) := by
  intro l
  induction l with
  | nil =>
    constructor
    · intro h
      simp only [subTok] at h
      exact absurd h tokNil
    · intro h
      simp only [subTok] at h
      exact absurd h tokNil
  | cons c cs ih =>
    have hq' : qs.all nonspace = true := by
      rw [List.all_cons, Bool.and_eq_true] at hq
      exact hq.2
    constructor
    · -- normal mode
      intro hocc
      by_cases hm : (c == t0 && ts.isPrefixOf cs &&
          (match cs.drop ts.length with | d :: _ => nonspace d | [] => false)) = true
      · rw [subTok, if_neg (by simp), if_pos hm] at hocc
        exact tokShift (ih.2 hocc)
      · rw [subTok, if_neg (by simp), if_neg hm] at hocc
        rcases tokConsElim hocc with ⟨d, hd, hp⟩ | htail
        · rw [List.cons_append, consPre] at hp
          obtain ⟨heq, hp'⟩ := hp
          have hnsd : nonspace d = true := by rw [nonspace, hd]; rfl
          have hall : (qs ++ [d]).all nonspace = true := by
            rw [List.all_append]
            simp [hq', hnsd]
          have hpre : (qs ++ [d]) <+: cs :=
            (subTok_pullback t0 ts cs (qs ++ [d]) hall).1 hp'
          refine ⟨0, d, hd, ?_⟩
          rw [List.drop_zero, List.cons_append, consPre]
          exact ⟨heq, hpre⟩
        · exact tokShift (ih.1 htail)
    · -- swallow mode
      intro hocc
      by_cases hsp : nonspace c = true
      · rw [subTok, if_pos (by simp), if_pos hsp] at hocc
        exact tokShift (ih.2 hocc)
      · rw [subTok, if_pos (by simp), if_neg hsp] at hocc
        rcases tokConsElim hocc with ⟨d, hd, hp⟩ | htail
        · rw [List.cons_append, consPre] at hp
          -- the pattern head is non-whitespace but `c` is whitespace
          exfalso
          rw [List.all_cons, Bool.and_eq_true] at hq
          apply hsp
          rw [← hp.1]
          exact hq.1
        · exact tokShift (ih.1 htail)

theorem cleanLine_noAlign (line : List Char) : ¬ TokOcc "align:".data (cleanLine line) := by
  intro hocc
  have hpat : "align:".data = 'a' :: "lign:".data := rfl
  have h1 : TokOcc "align:".data
      (subTok 'p' "osition:".data false
        (subTok 'a' "lign:".data false (removeCTags (removeTimeTags line)))) :=
    tokStripChars hocc
  have h2 : TokOcc "align:".data
      (subTok 'a' "lign:".data false (removeCTags (removeTimeTags line))) := by
    rw [hpat] at h1 ⊢
    exact (subTok_noCreate 'p' "osition:".data (by decide) _).1 h1
  rw [hpat] at h2
  exact (subTok_noOcc 'a' "lign:".data (by decide) (by decide) _).1 h2

theorem cleanLine_noPosition (line : List Char) :
    ¬ TokOcc "position:".data (cleanLine line) := by
  intro hocc
  have hpat : "position:".data = 'p' :: "osition:".data := rfl
  have h1 : TokOcc "position:".data
      (subTok 'p' "osition:".data false
        (subTok 'a' "lign:".data false (removeCTags (removeTimeTags line)))) :=
    tokStripChars hocc
  rw [hpat] at h1
  exact (subTok_noOcc 'p' "osition:".data (by decide) (by decide) _).1 h1

theorem tokSplitWS {q0 : Char} {qs : List Char} (hq : (q0 :: qs).all nonspace = true)
    {w : Char} (hw : pyIsSpace w = true) :
    ∀ (a b : List Char), TokOcc (q0 :: qs) (a ++ w :: b) →
      TokOcc (q0 :: qs) a ∨ TokOcc (q0 :: qs) b := by
  intro a
  induction a with
  | nil =>
    intro b hocc
    rw [List.nil_append] at hocc
    rcases tokConsElim hocc with ⟨d, hd, hp⟩ | htail
    · rw [List.cons_append, consPre] at hp
      exfalso
      rw [List.all_cons, Bool.and_eq_true] at hq
      have : nonspace w = true := hp.1 ▸ hq.1
      rw [nonspace, hw] at this
      cases this
    · exact Or.inr htail
  | cons c a' ih =>
    intro b hocc
    rw [List.cons_append] at hocc
    rcases tokConsElim hocc with ⟨d, hd, hp⟩ | htail
    · rw [List.cons_append, consPre] at hp
      obtain ⟨heq, hp'⟩ := hp
      have hnsd : nonspace d = true := by rw [nonspace, hd]; rfl
      have hq2 : qs.all nonspace = true := by
        rw [List.all_cons, Bool.and_eq_true] at hq
        exact hq.2
      have hall : (qs ++ [d]).all nonspace = true := by
        rw [List.all_append]
        simp [hq2, hnsd]
      have hpre : (qs ++ [d]) <+: a' :=
        preSplitWS hw a' (qs ++ [d]) b hall hp'
      refine Or.inl ⟨0, d, hd, ?_⟩
      rw [List.drop_zero, List.cons_append, consPre]
      exact ⟨heq, hpre⟩
    · rcases ih b htail with hl | hr
      · exact Or.inl (tokShift hl)
      · exact Or.inr hr

theorem tokJoinSpace {q0 : Char} {qs : List Char} (hq : (q0 :: qs).all nonspace = true) :
    ∀ xs : List (List Char), (∀ x ∈ xs, ¬ TokOcc (q0 :: qs) x) →
      ¬ TokOcc (q0 :: qs) (joinSpaceL xs) := by
  intro xs
  induction xs with
  | nil => intro _; exact tokNil
  | cons x ys ih =>
    intro hall hocc
    cases ys with
    | nil =>
      exact hall x (by simp) (by simpa [joinSpaceL] using hocc)
    | cons y ys' =>
      have hjoin : joinSpaceL (x :: y :: ys') = x ++ ' ' :: joinSpaceL (y :: ys') := rfl
      rw [hjoin] at hocc
      rcases tokSplitWS hq (by decide) x (joinSpaceL (y :: ys')) hocc with hl | hr
      · exact hall x (by simp) hl
      · exact ih (fun z hz => hall z (by simp [hz])) hr

theorem candidatesOf_mem {x : List Char} :
    ∀ {ls : List (List Char)}, x ∈ candidatesOf ls → ∃ l, x = cleanLine l := by
  intro ls
  induction ls with
  | nil => intro h; cases h
  | cons l ls' ih =>
    intro h
    unfold candidatesOf at h
    by_cases h1 : rawSkip l = true
    · rw [if_pos h1] at h; exact ih h
    · rw [if_neg h1] at h
      by_cases h2 : (cleanLine l).isEmpty = true
      · simp only [h2, if_true] at h; exact ih h
      · simp only [h2, Bool.false_eq_true, if_false] at h
        rcases List.mem_cons.mp h with he | hm
        · exact ⟨l, he⟩
        · exact ih hm

theorem cleanedLines_mem {x : List Char} {s : String} (h : x ∈ cleanedLines s) :
    ∃ l, x = cleanLine l := by
  rw [cleanedLines, foldl_cleanStep] at h
  simp only [List.nil_append] at h
  rw [specDedup_mem] at h
  exact candidatesOf_mem h.1

theorem tokenAt_iff {pat l : List Char} :
    tokenAt pat l = true ↔ ∃ d, pyIsSpace d = false ∧ (pat ++ [d]) <+: l := by
  unfold tokenAt
  rw [Bool.and_eq_true]
  constructor
  · rintro ⟨h1, h2⟩
    obtain ⟨t, ht⟩ := isPre_iff.mp h1
    have hdrop : l.drop pat.length = t := by rw [← ht, List.drop_left]
    rw [hdrop] at h2
    cases t with
    | nil => exact Bool.noConfusion h2
    | cons d t' =>
      have h2' : nonspace d = true := h2
      have hd : pyIsSpace d = false := by
        rw [nonspace] at h2'
        rcases Bool.eq_false_or_eq_true (pyIsSpace d) with htr | hf
        · rw [htr] at h2'; exact Bool.noConfusion h2'
        · exact hf
      refine ⟨d, hd, t', ?_⟩
      rw [List.append_assoc, List.singleton_append, ht]
  · rintro ⟨d, hd, t, ht⟩
    have hl : l = pat ++ (d :: t) := by
      rw [← ht, List.append_assoc]; rfl
    constructor
    · exact isPre_iff.mpr ⟨d :: t, hl.symm⟩
    · have hdrop : l.drop pat.length = d :: t := by rw [hl, List.drop_left]
      rw [hdrop]
      show nonspace d = true
      rw [nonspace, hd]
      rfl

theorem hasToken_iff {pat : List Char} :
    ∀ {l : List Char}, hasToken pat l = true ↔ TokOcc pat l := by
  intro l
  induction l with
  | nil =>
    simp only [hasToken]
    constructor
    · intro h; cases h
    · intro h; exact absurd h tokNil
  | cons c cs ih =>
    rw [hasToken, Bool.or_eq_true, tokenAt_iff, ih]
    constructor
    · rintro (⟨d, hd, hp⟩ | ht)
      · exact ⟨0, d, hd, by simpa using hp⟩
      · exact tokShift ht
    · intro h
      rcases tokConsElim h with ⟨d, hd, hp⟩ | ht
      · exact Or.inl ⟨d, hd, hp⟩
      · exact Or.inr ht

/-- C8 counterexample — the normalizer's output can contain an inline timing
tag of the form `<HH:MM:SS.mmm>`: removing the styling tag from the line
`<00:00:0<c>0.000>` reassembles a full timing tag after the timing-tag pass
has already run. -/
theorem clean_vtt_timetag_counterexample :
    containsTimeTag (clean_vtt "<00:00:0<c>0.000>").data = true := by decide

/-- C8 amended — for every input caption document the normalizer's output
contains no `align:` and no `position:` annotation token (an occurrence of the
literal immediately followed by a non-whitespace character); the corresponding
guarantee for inline timing tags fails by the counterexample. -/
theorem clean_vtt_no_align_position_tokens (vtt : String) :
    hasToken "align:".data (clean_vtt vtt).data = false ∧
    hasToken "position:".data (clean_vtt vtt).data = false := by
  have hdata : (clean_vtt vtt).data = joinSpaceL (cleanedLines vtt) := rfl
  constructor
  · rcases Bool.eq_false_or_eq_true (hasToken "align:".data (clean_vtt vtt).data)
      with htr | hf
    · exfalso
      rw [hdata, show ("align:".data : List Char) = 'a' :: "lign:".data from rfl] at htr
      refine tokJoinSpace (by decide) (cleanedLines vtt) (fun x hx => ?_)
        (hasToken_iff.mp htr)
      obtain ⟨l, rfl⟩ := cleanedLines_mem hx
      exact fun hocc => cleanLine_noAlign l (by
        rw [show ('a' :: "lign:".data : List Char) = "align:".data from rfl] at hocc
        exact hocc)
    · exact hf
  · rcases Bool.eq_false_or_eq_true (hasToken "position:".data (clean_vtt vtt).data)
      with htr | hf
    · exfalso
      rw [hdata, show ("position:".data : List Char) = 'p' :: "osition:".data from rfl] at htr
      refine tokJoinSpace (by decide) (cleanedLines vtt) (fun x hx => ?_)
        (hasToken_iff.mp htr)
      obtain ⟨l, rfl⟩ := cleanedLines_mem hx
      exact fun hocc => cleanLine_noPosition l (by
        rw [show ('p' :: "osition:".data : List Char) = "position:".data from rfl] at hocc
        exact hocc)
    · exact hf
